import Mathlib

/-!
Verification of the azure-search-vector-samples repository specification.

The repository ships a single notebook that orchestrates external services.
Its specification reframes the conceptually hard part as a self-contained
retrieval core (Chunk Store, Vector Index, Lexical Index, Hybrid Ranker).
That core has no source under the repository, so it is modelled here
directly from the words of the specification; the notebook cell that reads
credentials from the environment is embedded from the notebook source.
-/

namespace AzureSearchDemo

/-- Modelled from the spec (section 7): the error taxonomy of the retrieval
core. The repository contains no implementation of the core, only the spec
section 7 names these errors. -/
inductive Err where
  | notFound
  | duplicateId
  | dimensionMismatch
  | providerUnavailable
  | rateLimited
  | invalidQuery
deriving DecidableEq, Repr

/-- A chunk identifier.  The spec only requires ids to be unique and
totally ordered (ties are broken by ascending chunk id); natural numbers
realize that. -/
abbrev ChunkId := Nat

/-- Modelled from the spec (section 3): a chunk record
`id, source, text, sequence_index`, immutable once created. -/
structure Chunk where
  id : ChunkId
  source : String
  text : String
  sequence_index : Nat
deriving DecidableEq, Repr

/-- Modelled from the spec (section 4.1): the Chunk Store holds chunks
keyed by unique id; an association list keeps the model executable. -/
structure ChunkStore where
  chunks : List (ChunkId × Chunk)
deriving DecidableEq, Repr

/-- The ids present in the store. -/
def ChunkStore.ids (st : ChunkStore) : List ChunkId :=
  st.chunks.map Prod.fst

/-- Modelled from the spec (section 4.1): `insert(chunk) -> id`, failing
with `DuplicateId` if the id is already present. -/
def ChunkStore.insert (st : ChunkStore) (c : Chunk) :
    Except Err (ChunkStore × ChunkId) :=
  if c.id ∈ st.ids then .error .duplicateId
  else .ok (⟨(c.id, c) :: st.chunks⟩, c.id)

/-- Modelled from the spec (section 4.1): `get(id) -> Chunk | NotFound`. -/
def ChunkStore.get (st : ChunkStore) (i : ChunkId) : Except Err Chunk :=
  match st.chunks.lookup i with
  | some c => .ok c
  | none => .error .notFound

/-- Modelled from the spec (section 4.1): `delete(id) -> ok | NotFound`,
removing the chunk from the store. -/
def ChunkStore.erase (st : ChunkStore) (i : ChunkId) :
    Except Err ChunkStore :=
  if i ∈ st.ids then .ok ⟨st.chunks.filter (fun p => p.1 ≠ i)⟩
  else .error .notFound

/-! ## Ranked lists

Every component of the spec returns ranked lists sorted descending by
score with ties broken by ascending chunk id; the sorting is shared. -/

/-- The spec ordering on scored chunks: `a` may come before `b` when the
score of `a` is strictly larger, or the scores tie and the id of `a` is
not larger (descending score, ties broken by ascending chunk id). -/
def RankedBefore {α : Type} [LinearOrder α] (a b : ChunkId × α) : Prop :=
  b.2 < a.2 ∨ (a.2 = b.2 ∧ a.1 ≤ b.1)

/-- Boolean form of `RankedBefore`, used as the merge-sort comparator. -/
def rankLE {α : Type} [LinearOrder α] (a b : ChunkId × α) : Bool :=
  decide (b.2 < a.2 ∨ (a.2 = b.2 ∧ a.1 ≤ b.1))

theorem rankLE_iff {α : Type} [LinearOrder α] (a b : ChunkId × α) :
    rankLE a b = true ↔ RankedBefore a b := by
  simp [rankLE, RankedBefore]

theorem rankLE_total {α : Type} [LinearOrder α] (a b : ChunkId × α) :
    (rankLE a b || rankLE b a) = true := by
  simp only [rankLE, Bool.or_eq_true, decide_eq_true_eq]
  rcases lt_trichotomy a.2 b.2 with h | h | h
  · exact Or.inr (Or.inl h)
  · rcases Nat.le_total a.1 b.1 with hn | hn
    · exact Or.inl (Or.inr ⟨h, hn⟩)
    · exact Or.inr (Or.inr ⟨h.symm, hn⟩)
  · exact Or.inl (Or.inl h)

theorem rankLE_trans {α : Type} [LinearOrder α] (a b c : ChunkId × α) :
    rankLE a b = true → rankLE b c = true → rankLE a c = true := by
  simp only [rankLE, decide_eq_true_eq]
  rintro (hab | ⟨hab, hab'⟩) (hbc | ⟨hbc, hbc'⟩)
  · exact Or.inl (hbc.trans hab)
  · exact Or.inl (hbc ▸ hab)
  · exact Or.inl (hab ▸ hbc)
  · exact Or.inr ⟨hab.trans hbc, hab'.trans hbc'⟩

/-- Sort a scored list descending by score, ties broken by ascending id. -/
def sortRanked {α : Type} [LinearOrder α] (l : List (ChunkId × α)) :
    List (ChunkId × α) :=
  l.mergeSort rankLE

theorem sortRanked_perm {α : Type} [LinearOrder α]
    (l : List (ChunkId × α)) : (sortRanked l).Perm l :=
  List.mergeSort_perm l rankLE

theorem sortRanked_sorted {α : Type} [LinearOrder α]
    (l : List (ChunkId × α)) :
    (sortRanked l).Pairwise RankedBefore := by
  refine (@List.sorted_mergeSort _ rankLE
    (fun a b c => rankLE_trans a b c) rankLE_total l).imp ?_
  intro a b h
  exact (rankLE_iff a b).mp h

theorem sortRanked_mem {α : Type} [LinearOrder α]
    {l : List (ChunkId × α)} {p : ChunkId × α} :
    p ∈ sortRanked l ↔ p ∈ l :=
  (sortRanked_perm l).mem_iff

theorem sortRanked_length {α : Type} [LinearOrder α]
    (l : List (ChunkId × α)) : (sortRanked l).length = l.length :=
  (sortRanked_perm l).length_eq

/-! ## Vector Index (spec section 4.3) -/

/-- Modelled from the spec (section 4.3): the Vector Index stores vectors
keyed by chunk id, with the embedding dimension fixed at creation time. -/
structure VectorIndex where
  dim : Nat
  entries : List (ChunkId × List ℝ)

/-- Dot product of two embedding vectors. -/
def dot (u v : List ℝ) : ℝ :=
  (List.zipWith (fun x y => x * y) u v).sum

/-- Modelled from the spec (section 4.3): cosine similarity, the required
similarity metric.  On a zero vector the denominator is zero and the
quotient is zero by the division convention of the reals in Lean. -/
noncomputable def cosineSim (u v : List ℝ) : ℝ :=
  dot u v / (Real.sqrt (dot u u) * Real.sqrt (dot v v))

/-- Modelled from the spec (section 4.3): `insert(chunk_id, vector)`;
every entry must share the index dimension. -/
def VectorIndex.insert (idx : VectorIndex) (i : ChunkId) (v : List ℝ) :
    Except Err VectorIndex :=
  if v.length ≠ idx.dim then .error .dimensionMismatch
  else .ok ⟨idx.dim, (i, v) :: idx.entries⟩

/-- Modelled from the spec (section 4.3): `delete(chunk_id)`. -/
def VectorIndex.erase (idx : VectorIndex) (i : ChunkId) : VectorIndex :=
  ⟨idx.dim, idx.entries.filter (fun e => e.1 ≠ i)⟩

/-- Modelled from the spec (section 4.3): `search(query_vector, k)` as the
required exact brute-force reference behavior; fails with
`DimensionMismatch` when the query length differs from the index
dimension, otherwise scores every entry by cosine similarity and returns
the top `k`, descending, ties broken by ascending chunk id. -/
noncomputable def VectorIndex.search (idx : VectorIndex) (q : List ℝ)
    (k : Nat) : Except Err (List (ChunkId × ℝ)) :=
  if q.length ≠ idx.dim then .error .dimensionMismatch
  else .ok ((sortRanked (idx.entries.map
    (fun e => (e.1, cosineSim q e.2)))).take k)

/-! ## Lexical Index (spec section 4.4) -/

/-- Splits a character stream into maximal alphanumeric runs, the
accumulator carrying the current run in reverse. -/
def splitTokens (cs : List Char) (cur : List Char) : List (List Char) :=
  match cs with
  | [] => if cur = [] then [] else [cur.reverse]
  | c :: rest =>
    if c.isAlphanum then splitTokens rest (c :: cur)
    else if cur = [] then splitTokens rest []
    else cur.reverse :: splitTokens rest []

/-- Modelled from the spec (section 4.4): tokenization case-folds and
splits on non-alphanumeric characters; empty fragments are discarded. -/
def tokenize (s : String) : List String :=
  (splitTokens (s.toList.map Char.toLower) []).map List.asString

/-- Modelled from the spec (section 4.4): the Lexical Index keeps, per
chunk id, the token list of the inserted text.  Term frequencies and
document frequencies (the postings data of the spec) are derived views of
this state. -/
structure LexicalIndex where
  docs : List (ChunkId × List String)

/-- Modelled from the spec (section 4.4): `insert(chunk_id, text)`
tokenizes and updates the postings. -/
def LexicalIndex.insert (idx : LexicalIndex) (i : ChunkId) (text : String) :
    LexicalIndex :=
  ⟨(i, tokenize text) :: idx.docs⟩

/-- Modelled from the spec (section 4.4): `delete(chunk_id)`. -/
def LexicalIndex.erase (idx : LexicalIndex) (i : ChunkId) : LexicalIndex :=
  ⟨idx.docs.filter (fun d => d.1 ≠ i)⟩

/-- Document frequency: how many indexed chunks contain the term. -/
def LexicalIndex.df (idx : LexicalIndex) (t : String) : Nat :=
  (idx.docs.filter (fun d => decide (t ∈ d.2))).length

/-- Modelled from the spec (section 4.4): for each query term present in
the chunk, accumulate `tf * log (N / df)`.  `N` and the document
frequency function are passed in from the index at search time. -/
noncomputable def tfidfScore (N : Nat) (dfF : String → Nat)
    (qts tokens : List String) : ℝ :=
  ((qts.filter (fun t => decide (t ∈ tokens))).map
    (fun t => (tokens.count t : ℝ) * Real.log ((N : ℝ) / (dfF t : ℝ)))).sum

/-- Modelled from the spec (section 4.4): `search(query_text, k)` scores
every chunk sharing at least one term with the query, excludes the rest,
and returns the top `k` descending by score, ties broken by ascending
chunk id.  Duplicate query terms are collapsed before scoring. -/
noncomputable def LexicalIndex.search (idx : LexicalIndex) (qtext : String)
    (k : Nat) : List (ChunkId × ℝ) :=
  let qts := (tokenize qtext).dedup
  let cands := idx.docs.filter (fun d => qts.any (fun t => decide (t ∈ d.2)))
  (sortRanked (cands.map
    (fun d => (d.1, tfidfScore idx.docs.length idx.df qts d.2)))).take k

/-! ## Hybrid Ranker (spec section 4.5)

The fusion arithmetic is stated over any linear ordered field so that it
can be exercised on the rationals and instantiated at the reals inside
the query pipeline. -/

/-- Smallest score of a ranked list (0 on the empty list). -/
def loScore {α : Type} [LinearOrderedField α] (scores : List α) : α :=
  match scores with
  | [] => 0
  | x :: xs => xs.foldl min x

/-- Largest score of a ranked list (0 on the empty list). -/
def hiScore {α : Type} [LinearOrderedField α] (scores : List α) : α :=
  match scores with
  | [] => 0
  | x :: xs => xs.foldl max x

/-- Modelled from the spec (section 4.5): min-max scaling of a score
within its own list.  When every score of the list is equal the
denominator is zero and the scaled value is zero by the division
convention of the field. -/
def minMaxNorm {α : Type} [LinearOrderedField α] (scores : List α)
    (s : α) : α :=
  (s - loScore scores) / (hiScore scores - loScore scores)

/-- The normalized score a ranked list contributes for a chunk: min-max
scaled when the chunk is present, zero when it is absent (spec section
4.5: a chunk present in only one list uses 0 for the missing
component). -/
def normScore {α : Type} [LinearOrderedField α]
    (l : List (ChunkId × α)) (c : ChunkId) : α :=
  match l.lookup c with
  | some s => minMaxNorm (l.map Prod.snd) s
  | none => 0

/-- Modelled from the spec (section 4.5): fuse a vector result list and a
lexical result list by combining, per chunk, the min-max normalized
component scores as `alpha * vector + (1 - alpha) * lexical`, then sort
descending by combined score with ties broken by ascending chunk id. -/
def fuse {α : Type} [LinearOrderedField α]
    (vres lres : List (ChunkId × α)) (alpha : α) : List (ChunkId × α) :=
  let ids := (vres.map Prod.fst ++ lres.map Prod.fst).dedup
  sortRanked (ids.map
    (fun c => (c, alpha * normScore vres c + (1 - alpha) * normScore lres c)))

/-- Modelled from the spec (section 4.5): the optional reranking pass
re-scores the top `M` candidates with the secondary scorer and re-sorts
only that prefix, leaving the remainder in fused order. -/
def rerank {α : Type} [LinearOrderedField α]
    (fused : List (ChunkId × α)) (scorer : ChunkId → α) (M : Nat) :
    List (ChunkId × α) :=
  sortRanked ((fused.take M).map (fun p => (p.1, scorer p.1))) ++ fused.drop M

/-! ## The combined store and the query pipeline (spec sections 2, 6, 7) -/

/-- Modelled from the spec (section 2): the assembled system state, one
Chunk Store plus the two derived indexes. -/
structure Store where
  chunkStore : ChunkStore
  vecIndex : VectorIndex
  lexIndex : LexicalIndex

/-- Modelled from the spec (sections 3 and 4.1): deletion cascades, so
that no vector entry or posting references a chunk absent from the Chunk
Store; deleting an unknown id fails with `NotFound`. -/
def Store.delete (st : Store) (i : ChunkId) : Except Err Store :=
  match st.chunkStore.erase i with
  | .error e => .error e
  | .ok cs => .ok ⟨cs, st.vecIndex.erase i, st.lexIndex.erase i⟩

/-- Referential integrity (spec section 3 invariants): every vector entry
and every posting references a chunk present in the Chunk Store. -/
def RefIntegrity (st : Store) : Prop :=
  (∀ e ∈ st.vecIndex.entries, e.1 ∈ st.chunkStore.ids) ∧
  (∀ d ∈ st.lexIndex.docs, d.1 ∈ st.chunkStore.ids)

/-- Modelled from the spec (section 6): the four query modes. -/
inductive Mode where
  | vector
  | lexical
  | hybrid
  | hybridReranked
deriving DecidableEq, Repr

/-- Modelled from the spec (section 6): one output record of a query,
`{source, text, score}`. -/
structure SearchRecord where
  source : String
  text : String
  score : ℝ

/-- Resolve ranked ids into output records through the Chunk Store; ids
with no stored chunk produce no record. -/
def toRecords (st : Store) (results : List (ChunkId × ℝ)) :
    List SearchRecord :=
  results.filterMap (fun p =>
    (st.chunkStore.chunks.lookup p.1).map
      (fun c => ⟨c.source, c.text, p.2⟩))

/-- Modelled from the spec (sections 6 and 7): the query entry point.
Fails with `InvalidQuery` when the query string is empty or `k ≤ 0`;
otherwise dispatches on the mode, caps the output at `k` records, and
propagates index errors.  `embed` stands for the external Embedding
Provider, `scorer` and `M` parametrize the optional reranking pass. -/
noncomputable def runQuery (st : Store) (embed : String → List ℝ)
    (scorer : ChunkId → ℝ) (M : Nat) (q : String) (k : Int) (mode : Mode)
    (alpha : ℝ) : Except Err (List SearchRecord) :=
  if q = "" ∨ k ≤ 0 then .error .invalidQuery
  else
    match mode with
    | .vector =>
      (st.vecIndex.search (embed q) k.toNat).map (toRecords st)
    | .lexical =>
      .ok (toRecords st (st.lexIndex.search q k.toNat))
    | .hybrid =>
      (st.vecIndex.search (embed q) k.toNat).map (fun vr =>
        toRecords st
          ((fuse vr (st.lexIndex.search q k.toNat) alpha).take k.toNat))
    | .hybridReranked =>
      (st.vecIndex.search (embed q) k.toNat).map (fun vr =>
        toRecords st
          ((rerank (fuse vr (st.lexIndex.search q k.toNat) alpha)
            scorer M).take k.toNat))

/-! ## Notebook credential logic (embedded from the source notebook)

Cell 5 of `azure-search-vector-python-langchain-sample.ipynb`:

  key_credential = os.environ["AZURE_SEARCH_ADMIN_KEY"]
      if len(os.environ["AZURE_SEARCH_ADMIN_KEY"]) > 0 else None
  credential = key_credential or DefaultAzureCredential()
-/

/-- The credential value the notebook ends up with: either an admin key
string or the `DefaultAzureCredential` fallback. -/
inductive Credential where
  | key : String → Credential
  | defaultAzure
deriving DecidableEq, Repr

/-- Embeds the notebook line
`key_credential = os.environ[...] if len(os.environ[...]) > 0 else None`. -/
def key_credential (azure_search_admin_key : String) : Option String :=
  if 0 < azure_search_admin_key.length then some azure_search_admin_key
  else none

/-- Embeds the notebook line
`credential = key_credential or DefaultAzureCredential()`: Python `or`
takes the right operand exactly when the left is falsy, and
`key_credential` is either `None` or a non-empty (hence truthy) string. -/
def credential (kc : Option String) : Credential :=
  match kc with
  | some k => .key k
  | none => .defaultAzure

/-! ## Helper lemmas on association lists -/

theorem lookup_eq_none_of_not_mem_fst {β : Type} {l : List (ChunkId × β)}
    {c : ChunkId} (h : c ∉ l.map Prod.fst) : l.lookup c = none := by
  induction l with
  | nil => rfl
  | cons p t ih =>
    simp only [List.map_cons, List.mem_cons, not_or] at h
    have hne : (c == p.1) = false := by
      simp only [beq_eq_false_iff_ne, ne_eq]
      exact fun hc => h.1 hc
    simp [List.lookup, hne, ih h.2]

theorem eq_snd_of_nodup_fst {β : Type} {l : List (ChunkId × β)}
    (hnd : (l.map Prod.fst).Nodup) {c : ChunkId} {a b : β}
    (ha : (c, a) ∈ l) (hb : (c, b) ∈ l) : a = b := by
  induction l with
  | nil => cases ha
  | cons p t ih =>
    simp only [List.map_cons, List.nodup_cons] at hnd
    rcases List.mem_cons.mp ha with ha1 | ha1 <;>
      rcases List.mem_cons.mp hb with hb1 | hb1
    · have h2 : (c, a) = (c, b) := ha1.trans hb1.symm
      simpa using h2
    · exfalso
      apply hnd.1
      rw [← ha1]
      exact List.mem_map.mpr ⟨(c, b), hb1, rfl⟩
    · exfalso
      apply hnd.1
      rw [← hb1]
      exact List.mem_map.mpr ⟨(c, a), ha1, rfl⟩
    · exact ih hnd.2 ha1 hb1

/-! ## Claim theorems -/

/-- C10: when the `AZURE_SEARCH_ADMIN_KEY` environment variable is the
empty string the notebook treats the search key as absent (`None`) and
falls back to `DefaultAzureCredential`; a non-empty value is used as the
key credential and suppresses the fallback. -/
theorem credential_env_fallback (s : String) :
    (s = "" → key_credential s = none ∧
      credential (key_credential s) = Credential.defaultAzure) ∧
    (s ≠ "" → key_credential s = some s ∧
      credential (key_credential s) = Credential.key s) := by
  constructor
  · rintro rfl
    simp [key_credential, credential]
  · intro h
    have hlen : 0 < s.length := by
      rcases s with ⟨l⟩
      cases l with
      | nil => simp at h
      | cons a t => simp [String.length]
    simp [key_credential, credential, hlen]

theorem credential_env_fallback_witness :
    credential (key_credential ("")) = Credential.defaultAzure ∧
    credential (key_credential ("adminkey123")) = Credential.key ("adminkey123") :=
  ⟨((credential_env_fallback ("")).1 rfl).2,
   ((credential_env_fallback ("adminkey123")).2 (by decide)).2⟩

/-- C5: for every chunk whose id is not already present in the Chunk
Store, `get` applied to the id returned by `insert(chunk)` returns the
chunk that was inserted. -/
theorem get_after_insert (st : ChunkStore) (c : Chunk)
    (h : c.id ∉ st.ids) :
    ∃ st', st.insert c = .ok (st', c.id) ∧ st'.get c.id = .ok c := by
  refine ⟨⟨(c.id, c) :: st.chunks⟩, ?_, ?_⟩
  · simp [ChunkStore.insert, h]
  · simp [ChunkStore.get, List.lookup]

theorem get_after_insert_witness :
    ∃ st', (ChunkStore.mk []).insert ⟨7, ("doc"), ("hello world"), 0⟩ =
        .ok (st', 7) ∧
      st'.get 7 = .ok ⟨7, ("doc"), ("hello world"), 0⟩ :=
  get_after_insert (ChunkStore.mk []) ⟨7, ("doc"), ("hello world"), 0⟩
    (by decide)

/-- C6: vector search fails with `DimensionMismatch` exactly when the
query vector length differs from the index dimension; when the dimensions
agree it succeeds, so that error is not raised. -/
theorem search_dimension_mismatch (idx : VectorIndex) (q : List ℝ)
    (k : Nat) :
    (idx.search q k = .error Err.dimensionMismatch ↔
      q.length ≠ idx.dim) ∧
    (q.length = idx.dim → ∃ r, idx.search q k = .ok r) := by
  unfold VectorIndex.search
  constructor
  · by_cases h : q.length = idx.dim <;> simp [h]
  · intro h
    simp [h]

theorem search_dimension_mismatch_witness :
    (∃ r, (VectorIndex.mk 2 [(0, [(1 : ℝ), 0])]).search [(1 : ℝ), 0] 5 =
      .ok r) ∧
    (VectorIndex.mk 2 []).search [(1 : ℝ)] 5 =
      .error Err.dimensionMismatch :=
  ⟨(search_dimension_mismatch (VectorIndex.mk 2 [(0, [(1 : ℝ), 0])])
      [(1 : ℝ), 0] 5).2 rfl,
   (search_dimension_mismatch (VectorIndex.mk 2 []) [(1 : ℝ)] 5).1.mpr
      (by decide)⟩

/-- C7: the reranking pass re-scores and re-sorts only the top-M prefix
of the fused list: every result beyond position M is identical before and
after the pass, and the new prefix is a permutation of the old prefix
re-scored by the secondary scorer, sorted by the ranking order. -/
theorem rerank_frame {α : Type} [LinearOrderedField α]
    (fused : List (ChunkId × α)) (scorer : ChunkId → α) (M : Nat) :
    (rerank fused scorer M).drop M = fused.drop M ∧
    ((rerank fused scorer M).take M).Perm
      ((fused.take M).map (fun p => (p.1, scorer p.1))) ∧
    ((rerank fused scorer M).take M).Pairwise RankedBefore := by
  have key : ∀ hd : List (ChunkId × α), hd.length = min M fused.length →
      (hd ++ fused.drop M).drop M = fused.drop M ∧
      (hd ++ fused.drop M).take M = hd := by
    intro hd hl
    have hdM : hd.length ≤ M := by omega
    constructor
    · rw [List.drop_append_eq_append_drop, List.drop_eq_nil_of_le hdM,
        List.nil_append]
      rcases Nat.le_total M fused.length with hM | hM
      · have h0 : M - hd.length = 0 := by omega
        rw [h0, List.drop_zero]
      · rw [List.drop_eq_nil_of_le hM, List.drop_nil]
    · rw [List.take_append_eq_append_take, List.take_of_length_le hdM]
      rcases Nat.le_total M fused.length with hM | hM
      · have h0 : M - hd.length = 0 := by omega
        rw [h0, List.take_zero, List.append_nil]
      · rw [List.drop_eq_nil_of_le hM, List.take_nil, List.append_nil]
  have hlen2 : (sortRanked ((fused.take M).map
      (fun p => (p.1, scorer p.1)))).length = min M fused.length := by
    rw [sortRanked_length, List.length_map, List.length_take]
  obtain ⟨hdrop, htake⟩ := key _ hlen2
  refine ⟨hdrop, ?_, ?_⟩
  · rw [rerank, htake]
    exact sortRanked_perm _
  · rw [rerank, htake]
    exact sortRanked_sorted _

/-- C1: the fused score of every chunk in the Hybrid Ranker output equals
`alpha` times its min-max-normalized vector score plus `1 - alpha` times
its min-max-normalized lexical score, a chunk appearing in only one list
contributes 0 for the missing component, a chunk appears in the output
exactly when it appears in some input list, and the output is sorted
descending by combined score with ties broken by ascending chunk id. -/
theorem fuse_spec {α : Type} [LinearOrderedField α]
    (vres lres : List (ChunkId × α)) (alpha : α) :
    (∀ c s, (c, s) ∈ fuse vres lres alpha →
      s = alpha * normScore vres c + (1 - alpha) * normScore lres c) ∧
    (∀ (l : List (ChunkId × α)) c, c ∉ l.map Prod.fst → normScore l c = 0) ∧
    (∀ c, c ∈ (fuse vres lres alpha).map Prod.fst ↔
      c ∈ vres.map Prod.fst ∨ c ∈ lres.map Prod.fst) ∧
    (fuse vres lres alpha).Pairwise RankedBefore := by
  refine ⟨?_, ?_, ?_, ?_⟩
  · intro c s hmem
    rw [fuse] at hmem
    have hmem2 := sortRanked_mem.mp hmem
    obtain ⟨c2, _, heq⟩ := List.mem_map.mp hmem2
    obtain ⟨h1, h2⟩ := Prod.mk.injEq .. ▸ heq
    rw [← h2, h1]
  · intro l c hc
    rw [normScore, lookup_eq_none_of_not_mem_fst hc]
  · intro c
    have hperm : ((fuse vres lres alpha).map Prod.fst).Perm
        ((vres.map Prod.fst ++ lres.map Prod.fst).dedup) := by
      rw [fuse]
      have := (sortRanked_perm (((vres.map Prod.fst ++
        lres.map Prod.fst).dedup).map (fun c => (c, alpha * normScore vres c +
          (1 - alpha) * normScore lres c)))).map Prod.fst
      rw [List.map_map] at this
      have h3 : (Prod.fst ∘ fun c : ChunkId =>
          (c, alpha * normScore vres c + (1 - alpha) * normScore lres c)) =
          id := rfl
      rw [h3, List.map_id] at this
      exact this
    rw [hperm.mem_iff, List.mem_dedup, List.mem_append]
  · rw [fuse]
    exact sortRanked_sorted _

theorem fuse_spec_witness :
    normScore ([((1 : ChunkId), (5 : ℚ))]) 2 = 0 :=
  (fuse_spec ([((1 : ChunkId), (5 : ℚ))]) [] (1 / 2)).2.1
    ([((1 : ChunkId), (5 : ℚ))]) 2 (by decide)

/-- C2: when the query dimension matches, the stored ids are distinct and
`k` is at least the number of indexed chunks, vector search succeeds and
returns every indexed chunk id exactly once, each scored by the cosine
similarity of its stored vector to the query, sorted descending by that
similarity with ties broken by ascending chunk id. -/
theorem vector_search_total_recall (idx : VectorIndex) (q : List ℝ)
    (k : Nat) (hdim : q.length = idx.dim)
    (hnd : (idx.entries.map Prod.fst).Nodup)
    (hk : idx.entries.length ≤ k) :
    ∃ r, idx.search q k = .ok r ∧
      (r.map Prod.fst).Perm (idx.entries.map Prod.fst) ∧
      (r.map Prod.fst).Nodup ∧
      (∀ p ∈ r, ∃ v, (p.1, v) ∈ idx.entries ∧ p.2 = cosineSim q v) ∧
      r.Pairwise RankedBefore := by
  have hscored : (idx.entries.map
      (fun e => (e.1, cosineSim q e.2))).length ≤ k := by
    rw [List.length_map]
    exact hk
  have htake : (sortRanked (idx.entries.map
      (fun e => (e.1, cosineSim q e.2)))).take k =
      sortRanked (idx.entries.map (fun e => (e.1, cosineSim q e.2))) := by
    apply List.take_of_length_le
    rw [sortRanked_length]
    exact hscored
  have hperm : ((sortRanked (idx.entries.map
      (fun e => (e.1, cosineSim q e.2)))).map Prod.fst).Perm
      (idx.entries.map Prod.fst) := by
    have h1 := (sortRanked_perm (idx.entries.map
      (fun e => (e.1, cosineSim q e.2)))).map Prod.fst
    rw [List.map_map] at h1
    exact h1
  refine ⟨(sortRanked (idx.entries.map
      (fun e => (e.1, cosineSim q e.2)))).take k, ?_, ?_, ?_, ?_, ?_⟩
  · rw [VectorIndex.search]
    simp [hdim]
  · rw [htake]
    exact hperm
  · rw [htake]
    exact hperm.nodup_iff.mpr hnd
  · intro p hp
    rw [htake] at hp
    obtain ⟨e, he, heq⟩ := List.mem_map.mp (sortRanked_mem.mp hp)
    refine ⟨e.2, ?_, ?_⟩
    · rw [← heq]
      exact he
    · rw [← heq]
  · rw [htake]
    exact sortRanked_sorted _

theorem vector_search_total_recall_witness :
    ∃ r, (VectorIndex.mk 2 [(0, [(1 : ℝ), 0]), (1, [(0 : ℝ), 1])]).search
        [(1 : ℝ), 0] 2 = .ok r ∧
      (r.map Prod.fst).Perm [0, 1] ∧
      (r.map Prod.fst).Nodup ∧
      (∀ p ∈ r, ∃ v,
        (p.1, v) ∈ [(0, [(1 : ℝ), 0]), (1, [(0 : ℝ), 1])] ∧
        p.2 = cosineSim [(1 : ℝ), 0] v) ∧
      r.Pairwise RankedBefore :=
  vector_search_total_recall
    (VectorIndex.mk 2 [(0, [(1 : ℝ), 0]), (1, [(0 : ℝ), 1])])
    [(1 : ℝ), 0] 2 rfl (by decide) (by decide)

/-- C3: every chunk returned by lexical search is scored by the sum, over
the distinct query terms present in the chunk, of
`tf * log (N / df)` with `tf` the frequency of the term in the chunk,
`N` the total chunk count and `df` the number of chunks containing the
term; a chunk sharing no term with the query is excluded (stated under
the unique-id invariant), and the output is sorted descending by score
with ties broken by ascending chunk id. -/
theorem lexical_search_spec (idx : LexicalIndex) (qtext : String)
    (k : Nat) :
    (∀ c s, (c, s) ∈ idx.search qtext k →
      ∃ tokens, (c, tokens) ∈ idx.docs ∧
        (∃ t ∈ (tokenize qtext).dedup, t ∈ tokens) ∧
        s = (((tokenize qtext).dedup.filter
            (fun t => decide (t ∈ tokens))).map
          (fun t => (tokens.count t : ℝ) *
            Real.log ((idx.docs.length : ℝ) / (idx.df t : ℝ)))).sum) ∧
    ((idx.docs.map Prod.fst).Nodup →
      ∀ c tokens, (c, tokens) ∈ idx.docs →
        (∀ t ∈ (tokenize qtext).dedup, t ∉ tokens) →
        ∀ s, (c, s) ∉ idx.search qtext k) ∧
    (idx.search qtext k).Pairwise RankedBefore := by
  have hmain : ∀ c s, (c, s) ∈ idx.search qtext k →
      ∃ tokens, (c, tokens) ∈ idx.docs ∧
        (∃ t ∈ (tokenize qtext).dedup, t ∈ tokens) ∧
        s = tfidfScore idx.docs.length idx.df (tokenize qtext).dedup
          tokens := by
    intro c s hmem
    simp only [LexicalIndex.search] at hmem
    have hmem2 := sortRanked_mem.mp (List.take_subset k _ hmem)
    obtain ⟨d, hd, heq⟩ := List.mem_map.mp hmem2
    obtain ⟨hdocs, hpred⟩ := List.mem_filter.mp hd
    obtain ⟨h1, h2⟩ := Prod.mk.injEq .. ▸ heq
    refine ⟨d.2, ?_, ?_, ?_⟩
    · rw [← h1]
      exact hdocs
    · obtain ⟨t, ht, ht2⟩ := List.any_eq_true.mp hpred
      exact ⟨t, ht, of_decide_eq_true ht2⟩
    · rw [← h2]
  refine ⟨?_, ?_, ?_⟩
  · intro c s hmem
    obtain ⟨tokens, h1, h2, h3⟩ := hmain c s hmem
    exact ⟨tokens, h1, h2, h3⟩
  · intro hnd c tokens hdoc hnone s hmem
    obtain ⟨tokens2, h1, ⟨t, ht, ht2⟩, _⟩ := hmain c s hmem
    have h4 := eq_snd_of_nodup_fst hnd hdoc h1
    exact hnone t ht (h4 ▸ ht2)
  · simp only [LexicalIndex.search]
    exact List.Pairwise.sublist (List.take_sublist k _) (sortRanked_sorted _)

theorem lexical_search_spec_witness :
    ((1 : ChunkId), (0 : ℝ)) ∉ (LexicalIndex.mk
      [(1, [("alpha")]), (2, [("beta")])]).search ("beta gamma") 5 :=
  (lexical_search_spec (LexicalIndex.mk [(1, [("alpha")]), (2, [("beta")])])
    ("beta gamma") 5).2.1 (by decide) 1 [("alpha")] (by decide) (by decide) 0

/-- C8: with the corpus fixed (same chunk count and same document
frequencies), raising the frequency of a query term already present in a
chunk never decreases that chunk's lexical score: appending `m` further
copies of the term yields a score at least as large. -/
theorem lexical_score_monotone (idx : LexicalIndex) (c : ChunkId)
    (tokens qts : List String) (t : String) (m : Nat)
    (hdoc : (c, tokens) ∈ idx.docs) (ht : t ∈ tokens) :
    tfidfScore idx.docs.length idx.df qts tokens ≤
      tfidfScore idx.docs.length idx.df qts
        (tokens ++ List.replicate m t) := by
  have hmem : ∀ u, (u ∈ tokens ++ List.replicate m t) ↔ u ∈ tokens := by
    intro u
    rw [List.mem_append]
    constructor
    · rintro (h | h)
      · exact h
      · rw [List.eq_of_mem_replicate h]
        exact ht
    · exact Or.inl
  have hfilter : qts.filter
      (fun u => decide (u ∈ tokens ++ List.replicate m t)) =
      qts.filter (fun u => decide (u ∈ tokens)) :=
    List.filter_congr (fun x _ => decide_eq_decide.mpr (hmem x))
  rw [tfidfScore, tfidfScore, hfilter]
  apply List.sum_le_sum
  intro u hu
  obtain ⟨huq, hut⟩ := List.mem_filter.mp hu
  have hut2 : u ∈ tokens := of_decide_eq_true hut
  have hcount : tokens.count u ≤ (tokens ++ List.replicate m t).count u := by
    rw [List.count_append]
    exact Nat.le_add_right _ _
  have hdf1 : 0 < idx.df u := by
    rw [LexicalIndex.df]
    exact List.length_pos.mpr
      (List.ne_nil_of_mem
        (List.mem_filter.mpr ⟨hdoc, decide_eq_true hut2⟩))
  have hdfN : idx.df u ≤ idx.docs.length := List.length_filter_le _ _
  have hlog : 0 ≤ Real.log ((idx.docs.length : ℝ) / (idx.df u : ℝ)) := by
    apply Real.log_nonneg
    rw [one_le_div (by exact_mod_cast hdf1)]
    exact_mod_cast hdfN
  exact mul_le_mul_of_nonneg_right (by exact_mod_cast hcount) hlog

theorem lexical_score_monotone_witness :
    tfidfScore (LexicalIndex.mk [(1, [("pay")]), (2, [("claim")])]).docs.length
      (LexicalIndex.mk [(1, [("pay")]), (2, [("claim")])]).df
      [("pay")] [("pay")] ≤
    tfidfScore (LexicalIndex.mk [(1, [("pay")]), (2, [("claim")])]).docs.length
      (LexicalIndex.mk [(1, [("pay")]), (2, [("claim")])]).df
      [("pay")] ([("pay")] ++ List.replicate 3 ("pay")) :=
  lexical_score_monotone (LexicalIndex.mk [(1, [("pay")]), (2, [("claim")])])
    1 [("pay")] [("pay")] ("pay") 3 (by decide) (by decide)

theorem mem_ids_filter {β : Type} {l : List (ChunkId × β)} {j i : ChunkId}
    (hj : j ∈ l.map Prod.fst) (hne : j ≠ i) :
    j ∈ (l.filter (fun p => p.1 ≠ i)).map Prod.fst := by
  obtain ⟨p, hp, hp2⟩ := List.mem_map.mp hj
  refine List.mem_map.mpr ⟨p, List.mem_filter.mpr ⟨hp, ?_⟩, hp2⟩
  exact decide_eq_true (by rw [hp2]; exact hne)

theorem not_mem_ids_filter {β : Type} (l : List (ChunkId × β))
    (i : ChunkId) : i ∉ (l.filter (fun p => p.1 ≠ i)).map Prod.fst := by
  intro h
  obtain ⟨p, hp, hp2⟩ := List.mem_map.mp h
  exact of_decide_eq_true (List.mem_filter.mp hp).2 hp2

/-- C4: deleting a chunk id present in the Chunk Store succeeds and
cascades: the id disappears from the vector entries and the postings, no
subsequent vector or lexical search returns it, and referential integrity
is preserved, so no index entry references a chunk absent from the
store. -/
theorem delete_cascades (st : Store) (i : ChunkId)
    (hmem : i ∈ st.chunkStore.ids) :
    ∃ st', st.delete i = .ok st' ∧
      i ∉ st'.vecIndex.entries.map Prod.fst ∧
      i ∉ st'.lexIndex.docs.map Prod.fst ∧
      (∀ q k r, st'.vecIndex.search q k = .ok r →
        i ∉ r.map Prod.fst) ∧
      (∀ qt k, i ∉ (st'.lexIndex.search qt k).map Prod.fst) ∧
      (RefIntegrity st → RefIntegrity st') := by
  refine ⟨⟨⟨st.chunkStore.chunks.filter (fun p => p.1 ≠ i)⟩,
    st.vecIndex.erase i, st.lexIndex.erase i⟩, ?_, ?_, ?_, ?_, ?_, ?_⟩
  · rw [Store.delete, ChunkStore.erase]
    simp [hmem]
  · exact not_mem_ids_filter st.vecIndex.entries i
  · exact not_mem_ids_filter st.lexIndex.docs i
  · intro q k r hok hbad
    rw [VectorIndex.search] at hok
    split at hok
    · cases hok
    · have hr : r = (sortRanked ((st.vecIndex.erase i).entries.map
          (fun e => (e.1, cosineSim q e.2)))).take k :=
        (Except.ok.injEq .. ▸ hok).symm
      rw [hr] at hbad
      obtain ⟨p, hp, hp2⟩ := List.mem_map.mp hbad
      have hp3 := sortRanked_mem.mp (List.take_subset k _ hp)
      obtain ⟨e, he, he2⟩ := List.mem_map.mp hp3
      have he3 : e.1 = i := by
        rw [← hp2, ← he2]
      exact of_decide_eq_true
        (List.mem_filter.mp he).2 he3
  · intro qt k hbad
    simp only [LexicalIndex.search] at hbad
    obtain ⟨p, hp, hp2⟩ := List.mem_map.mp hbad
    have hp3 := sortRanked_mem.mp (List.take_subset k _ hp)
    obtain ⟨d, hd, hd2⟩ := List.mem_map.mp hp3
    have hd3 : d.1 = i := by
      rw [← hp2, ← hd2]
    exact of_decide_eq_true
      (List.mem_filter.mp (List.mem_filter.mp hd).1).2 hd3
  · rintro ⟨hv, hl⟩
    constructor
    · intro e he
      obtain ⟨he1, he2⟩ := List.mem_filter.mp he
      exact mem_ids_filter (hv e he1) (of_decide_eq_true he2)
    · intro d hd
      obtain ⟨hd1, hd2⟩ := List.mem_filter.mp hd
      exact mem_ids_filter (hl d hd1) (of_decide_eq_true hd2)

theorem delete_cascades_witness :
    ∃ st', (Store.mk (ChunkStore.mk [(1, ⟨1, ("d"), ("pay now"), 0⟩)])
        (VectorIndex.mk 1 [(1, [(1 : ℝ)])])
        (LexicalIndex.mk [(1, [("pay"), ("now")])])).delete 1 = .ok st' ∧
      1 ∉ st'.vecIndex.entries.map Prod.fst ∧
      1 ∉ st'.lexIndex.docs.map Prod.fst ∧
      (∀ q k r, st'.vecIndex.search q k = .ok r →
        1 ∉ r.map Prod.fst) ∧
      (∀ qt k, 1 ∉ (st'.lexIndex.search qt k).map Prod.fst) ∧
      (RefIntegrity (Store.mk
        (ChunkStore.mk [(1, ⟨1, ("d"), ("pay now"), 0⟩)])
        (VectorIndex.mk 1 [(1, [(1 : ℝ)])])
        (LexicalIndex.mk [(1, [("pay"), ("now")])])) → RefIntegrity st') :=
  delete_cascades (Store.mk (ChunkStore.mk [(1, ⟨1, ("d"), ("pay now"), 0⟩)])
    (VectorIndex.mk 1 [(1, [(1 : ℝ)])])
    (LexicalIndex.mk [(1, [("pay"), ("now")])])) 1 (by decide)

theorem vec_search_length_le (idx : VectorIndex) (q : List ℝ) (k : Nat)
    (r : List (ChunkId × ℝ)) (h : idx.search q k = .ok r) :
    r.length ≤ k := by
  rw [VectorIndex.search] at h
  split at h
  · cases h
  · have h2 := (Except.ok.injEq .. ▸ h).symm
    rw [h2]
    exact List.length_take_le k _

theorem lex_search_length_le (idx : LexicalIndex) (qtext : String)
    (k : Nat) : (idx.search qtext k).length ≤ k := by
  rw [LexicalIndex.search]
  exact List.length_take_le k _

theorem vec_search_error_eq (idx : VectorIndex) (q : List ℝ) (k : Nat)
    (e : Err) (h : idx.search q k = .error e) :
    e = Err.dimensionMismatch := by
  rw [VectorIndex.search] at h
  split at h
  · exact (Except.error.injEq .. ▸ h).symm
  · cases h

/-- C9: a query fails with `InvalidQuery` exactly when the query string
is empty or `k ≤ 0`; every successful query returns at most `k`
records. -/
theorem query_invalid_and_capped (st : Store) (embed : String → List ℝ)
    (scorer : ChunkId → ℝ) (M : Nat) (q : String) (k : Int) (mode : Mode)
    (alpha : ℝ) :
    (runQuery st embed scorer M q k mode alpha = .error Err.invalidQuery ↔
      (q = "" ∨ k ≤ 0)) ∧
    (∀ r, runQuery st embed scorer M q k mode alpha = .ok r →
      (r.length : Int) ≤ k) := by
  by_cases hinv : q = "" ∨ k ≤ 0
  · constructor
    · rw [runQuery.eq_def, if_pos hinv]
      exact iff_of_true rfl hinv
    · intro r hr
      rw [runQuery.eq_def, if_pos hinv] at hr
      cases hr
  · have hk : 0 < k := by
      rcases not_or.mp hinv with ⟨_, hk0⟩
      omega
    constructor
    · rw [runQuery.eq_def, if_neg hinv]
      refine iff_of_false ?_ hinv
      cases mode with
      | vector =>
        rcases hs : st.vecIndex.search (embed q) k.toNat with e | r2
        · have he := vec_search_error_eq _ _ _ _ hs
          simp [hs, he, Except.map]
        · simp [hs, Except.map]
      | lexical => simp
      | hybrid =>
        rcases hs : st.vecIndex.search (embed q) k.toNat with e | r2
        · have he := vec_search_error_eq _ _ _ _ hs
          simp [hs, he, Except.map]
        · simp [hs, Except.map]
      | hybridReranked =>
        rcases hs : st.vecIndex.search (embed q) k.toNat with e | r2
        · have he := vec_search_error_eq _ _ _ _ hs
          simp [hs, he, Except.map]
        · simp [hs, Except.map]
    · intro r hr
      rw [runQuery.eq_def, if_neg hinv] at hr
      have hgoal : r.length ≤ k.toNat → (r.length : Int) ≤ k := by
        intro h
        omega
      apply hgoal
      cases mode with
      | vector =>
        rcases hs : st.vecIndex.search (embed q) k.toNat with e | r2
        · rw [hs] at hr
          cases hr
        · rw [hs] at hr
          have h2 : toRecords st r2 = r := by
            simpa [Except.map] using hr
          rw [← h2]
          exact le_trans (List.length_filterMap_le _ _)
            (vec_search_length_le _ _ _ _ hs)
      | lexical =>
        have h2 : toRecords st (st.lexIndex.search q k.toNat) = r := by
          simpa using hr
        rw [← h2]
        exact le_trans (List.length_filterMap_le _ _)
          (lex_search_length_le _ _ _)
      | hybrid =>
        rcases hs : st.vecIndex.search (embed q) k.toNat with e | r2
        · rw [hs] at hr
          cases hr
        · rw [hs] at hr
          have h2 : toRecords st ((fuse r2 (st.lexIndex.search q k.toNat)
              alpha).take k.toNat) = r := by
            simpa [Except.map] using hr
          rw [← h2]
          exact le_trans (List.length_filterMap_le _ _)
            (List.length_take_le _ _)
      | hybridReranked =>
        rcases hs : st.vecIndex.search (embed q) k.toNat with e | r2
        · rw [hs] at hr
          cases hr
        · rw [hs] at hr
          have h2 : toRecords st ((rerank (fuse r2
              (st.lexIndex.search q k.toNat) alpha) scorer M).take
              k.toNat) = r := by
            simpa [Except.map] using hr
          rw [← h2]
          exact le_trans (List.length_filterMap_le _ _)
            (List.length_take_le _ _)

theorem query_invalid_and_capped_witness :
    runQuery (Store.mk (ChunkStore.mk []) (VectorIndex.mk 1 [])
        (LexicalIndex.mk [])) (fun _ => [(1 : ℝ)]) (fun _ => (0 : ℝ)) 50
      ("") 5 Mode.vector (1 / 2) = .error Err.invalidQuery :=
  (query_invalid_and_capped (Store.mk (ChunkStore.mk [])
      (VectorIndex.mk 1 []) (LexicalIndex.mk []))
    (fun _ => [(1 : ℝ)]) (fun _ => (0 : ℝ)) 50 ("") 5 Mode.vector
    (1 / 2)).1.mpr (Or.inl rfl)

end AzureSearchDemo
